import Mathlib

/-
Verification development for the chunked-file storage engine
(`src/background/chunk-storage.ts`).

The engine assembles one logical file from several write regions.  Three parts
are modelled here, each as a shallow embedding of the corresponding source
code:

* the per-writer promise-chain queue of `ChunkStorageWriter` (`sync`,
  `write`, `flush`);
* the random-access backend `MutableFileChunkStorage` with its backing
  mutable file and the persistence table (a `Float64Array` of
  `[pairCount, (startPosition, writtenSize)...]` values);
* the segmented backend `SegmentedFileChunkStorage` with its keyed segment
  store and generation sentry.

JavaScript numbers stored in the persistence table are nonnegative integers
(positions, sizes, counts), which `Float64Array` represents exactly below
`2 ^ 53`; their 8-byte serialization is modelled as the little-endian
base-256 encoding, which is injective below `2 ^ 64`.  The generation
sentries (fresh objects compared by identity in the source) are modelled as
monotonically increasing counters compared by value.  Promises are modelled
by sequential execution along the chain; `Except` models rejection.
-/

set_option linter.unusedVariables false

deriving instance DecidableEq for Except

/-! Byte-level model of `Float64Array` serialization. -/

/-- Little-endian base-256 digits of `v`, `k` bytes. -/
def encBytesAux : Nat → Nat → List Nat
  | 0, _ => []
  | k + 1, v => v % 256 :: encBytesAux k (v / 256)

/-- Value of a little-endian base-256 digit list. -/
def decBytesAux : List Nat → Nat
  | [] => 0
  | b :: bs => b + 256 * decBytesAux bs

/-- The 8 bytes of one `Float64Array` element holding the integer `v`
(exact for the nonnegative integers the engine stores). -/
def encF64 (v : Nat) : List Nat := encBytesAux 8 v

/-- The integer held by the first element of a `Float64Array` viewed over
`bs` (only the first 8 bytes participate). -/
def decF64 (bs : List Nat) : Nat := decBytesAux (bs.take 8)

/-- Serialization of a whole `Float64Array` (used by `typedArrayToBuffer`). -/
def encTable (t : List Nat) : List Nat := t.foldr (fun v acc => encF64 v ++ acc) []

/-- Deserialization of a byte buffer into `Float64Array` elements, 8 bytes
per element; a trailing group of fewer than 8 bytes yields no element (the
source guards against that case: the `Float64Array` constructor throws
there, which callers catch). -/
def decTable : List Nat → List Nat
  | b0 :: b1 :: b2 :: b3 :: b4 :: b5 :: b6 :: b7 :: rest =>
      decF64 [b0, b1, b2, b3, b4, b5, b6, b7] :: decTable rest
  | _ => []

theorem encBytesAux_length (k v : Nat) : (encBytesAux k v).length = k := by
  induction k generalizing v with
  | zero => rfl
  | succ k ih => simp [encBytesAux, ih]

theorem decBytesAux_encBytesAux (k v : Nat) :
    decBytesAux (encBytesAux k v) = v % 256 ^ k := by
  induction k generalizing v with
  | zero => simp [encBytesAux, decBytesAux, Nat.mod_one]
  | succ k ih =>
      have h : (256 : Nat) ^ (k + 1) = 256 * 256 ^ k := by ring
      rw [encBytesAux, decBytesAux, ih, h, Nat.mod_mul]

theorem decF64_encF64 (v : Nat) (h : v < 2 ^ 64) : decF64 (encF64 v) = v := by
  have hlen : (encBytesAux 8 v).length = 8 := encBytesAux_length 8 v
  have h64 : (256 : Nat) ^ 8 = 2 ^ 64 := by norm_num
  rw [decF64, encF64, List.take_of_length_le (le_of_eq hlen),
    decBytesAux_encBytesAux, h64, Nat.mod_eq_of_lt h]

theorem encF64_length (v : Nat) : (encF64 v).length = 8 := encBytesAux_length 8 v

theorem encTable_cons (v : Nat) (t : List Nat) :
    encTable (v :: t) = encF64 v ++ encTable t := rfl

theorem encTable_length (t : List Nat) : (encTable t).length = 8 * t.length := by
  induction t with
  | nil => rfl
  | cons v t ih =>
      rw [encTable_cons, List.length_append, encF64_length, ih, List.length_cons]
      ring

theorem decTable_eight_append (b0 b1 b2 b3 b4 b5 b6 b7 : Nat) (rest : List Nat) :
    decTable ([b0, b1, b2, b3, b4, b5, b6, b7] ++ rest) =
      decF64 [b0, b1, b2, b3, b4, b5, b6, b7] :: decTable rest := rfl

theorem decTable_encF64_append (v : Nat) (rest : List Nat) (h : v < 2 ^ 64) :
    decTable (encF64 v ++ rest) = v :: decTable rest := by
  have hv := decF64_encF64 v h
  have he : encF64 v = [v % 256, v / 256 % 256, v / 256 ^ 2 % 256, v / 256 ^ 3 % 256,
      v / 256 ^ 4 % 256, v / 256 ^ 5 % 256, v / 256 ^ 6 % 256, v / 256 ^ 7 % 256] := by
    show encBytesAux 8 v = _
    simp [encBytesAux, Nat.div_div_eq_div_mul]
  rw [he] at hv ⊢
  rw [decTable_eight_append, hv]

theorem decTable_encTable (t : List Nat) (h : ∀ v ∈ t, v < 2 ^ 64) :
    decTable (encTable t) = t := by
  induction t with
  | nil => rfl
  | cons v t ih =>
      rw [encTable_cons, decTable_encF64_append v _ (h v (by simp)),
        ih (fun x hx => h x (by simp [hx]))]

/-! Model of the backing `IDBMutableFile` (`SimpleMutableFile`), as a byte
sequence.  `write` places a buffer at a byte offset, zero-padding any gap;
`read` returns the bytes present in `[position, position + size)`, short at
end of file; `truncate` cuts the file to the given length. -/

structure MFile where
  bytes : List Nat
deriving DecidableEq

def MFile.read (f : MFile) (size position : Nat) : List Nat :=
  (f.bytes.drop position).take size

def MFile.write (f : MFile) (buf : List Nat) (position : Nat) : MFile :=
  ⟨(f.bytes ++ List.replicate (position - f.bytes.length) 0).take position ++ buf ++
    (f.bytes ++ List.replicate (position - f.bytes.length) 0).drop (position + buf.length)⟩

def MFile.truncate (f : MFile) (size : Nat) : MFile := ⟨f.bytes.take size⟩

theorem MFile.read_write_at (f : MFile) (buf : List Nat) (pos n : Nat)
    (h : n ≤ buf.length) : (f.write buf pos).read n pos = buf.take n := by
  have hpadlen : (f.bytes ++ List.replicate (pos - f.bytes.length) 0).length ≥ pos := by
    simp only [List.length_append, List.length_replicate]
    omega
  simp only [MFile.read, MFile.write]
  rw [List.append_assoc, List.drop_left' (by rw [List.length_take]; omega)]
  conv_lhs => rw [← List.take_append_drop n buf]
  rw [List.append_assoc, List.take_left' (by rw [List.length_take]; omega)]

/-! Model of the per-writer task queue (`ChunkStorageWriter.sync`).

A submitted operation is `write(data)` or `flush()`; its body
(`doWrite`/`doFlush`) is abstracted as a function `exec` from the operation
and the backend state to `Except` (rejection models a failed promise).
`sync(fn)` chains `fn` on the current tail promise, returns the chained
promise, and replaces the tail by `result.catch(handler)` where the handler
dispatches the error on the parent storage's `onError` channel and heals the
chain; the healed tail always fulfills, so the next `fn` runs. -/

/-- An operation submitted to a `ChunkStorageWriter`. -/
inductive WOp (α : Type) where
  | write (data : α)
  | flush
deriving DecidableEq

/-- The mutable state of one `ChunkStorageWriter` queue: the settled value
of the current tail promise (`this.promise`), the backend state the
operation bodies act on, and the errors dispatched so far on the parent
storage's `onError` channel. -/
structure WriterQueue (σ ε : Type) where
  promise : Except ε Unit
  state : σ
  dispatched : List ε
deriving DecidableEq

/-- One `sync(fn)` call, processed to completion: `result = promise.then(fn)`
either propagates a prior rejection without running `fn`, or runs `fn`;
`promise := result.catch(handler)` dispatches a rejection once and leaves
the tail fulfilled.  Returns the new queue and the settled value of the
promise `sync` returned to the caller. -/
def syncStep {α σ ε : Type} (exec : WOp α → σ → Except ε σ)
    (q : WriterQueue σ ε) (op : WOp α) : WriterQueue σ ε × Except ε Unit :=
  match q.promise with
  | .error e =>
      (⟨.ok (), q.state, q.dispatched ++ [e]⟩, .error e)
  | .ok _ =>
      match exec op q.state with
      | .ok s1 => (⟨.ok (), s1, q.dispatched⟩, .ok ())
      | .error e => (⟨.ok (), q.state, q.dispatched ++ [e]⟩, .error e)

/-- Processing a whole submission sequence through the queue, collecting the
settled value of each returned future in submission order. -/
def runOps {α σ ε : Type} (exec : WOp α → σ → Except ε σ) :
    List (WOp α) → WriterQueue σ ε → WriterQueue σ ε × List (Except ε Unit)
  | [], q => (q, [])
  | op :: rest, q =>
      let step := syncStep exec q op
      let tail := runOps exec rest step.1
      (tail.1, step.2 :: tail.2)

/-- A fresh writer queue: `private promise = Promise.resolve()`. -/
def initQueue {σ ε : Type} (s : σ) : WriterQueue σ ε := ⟨.ok (), s, []⟩

/-- Reference semantics, in the words of the specification: operations
execute one after the other in submission order; a failed operation
dispatches its error once, its own future rejects, its effect is lost, and
the following operations run unhindered.  Returns the final backend state,
the futures in submission order, and the dispatched errors in order. -/
def execInOrder {α σ ε : Type} (exec : WOp α → σ → Except ε σ) :
    List (WOp α) → σ → σ × List (Except ε Unit) × List ε
  | [], s => (s, [], [])
  | op :: rest, s =>
      match exec op s with
      | .ok s1 =>
          let tail := execInOrder exec rest s1
          (tail.1, .ok () :: tail.2.1, tail.2.2)
      | .error e =>
          let tail := execInOrder exec rest s
          (tail.1, .error e :: tail.2.1, e :: tail.2.2)

/-- The execution orders the promise-chain semantics allows for `n`
submitted operations.  `sched` lists the operation indices in the order
their bodies run.  Because operation `k + 1`'s body is chained on operation
`k`'s settled chain promise, its body begins only after operation `k`'s
body has completed, whenever each future settles: every admissible order
runs the body of `k` before the body of `k + 1`. -/
def chainScheduleValid (n : Nat) (sched : List Nat) : Prop :=
  sched.length = n ∧ sched.Nodup ∧ (∀ i ∈ sched, i < n) ∧
    ∀ k < n - 1, sched.indexOf k < sched.indexOf (k + 1)

instance (n : Nat) (sched : List Nat) : Decidable (chainScheduleValid n sched) := by
  unfold chainScheduleValid
  infer_instance

/-! Model of the random-access backend `MutableFileChunkStorage`.

State: the backing mutable file, the in-memory persistence table
`persistenceData` (`[pairCount, (startPosition, writtenSize)...]`), and the
persist generation sentry.  `concatTypedArray` and `typedArrayToBuffer` are
the repository's byte-buffer utilities (external to this file's source):
concatenation of buffers and the raw bytes of a `Float64Array`. -/

/-- Modelled from the spec: `concatTypedArray` concatenates an ordered
sequence of buffers (`src/util/util.js`, an external collaborator). -/
def concatTypedArray {β : Type} (bufs : List (List β)) : List β :=
  bufs.foldr (fun b acc => b ++ acc) []

/-- Modelled from the spec: `typedArrayToBuffer` views a numeric array as
raw bytes (`src/util/util.js`, an external collaborator); for a
`Float64Array` it is the element-wise 8-byte serialization. -/
def typedArrayToBuffer (t : List Nat) : List Nat := encTable t

structure MutableFileChunkStorage where
  file : MFile
  persistenceData : List Nat
  persistSentry : Nat
deriving DecidableEq

/-- The state right after `init`: a fresh backing file and the one-element
table `new Float64Array([0])`. -/
def MutableFileChunkStorage.initial : MutableFileChunkStorage :=
  ⟨⟨[]⟩, [0], 0⟩

/-- The persistence-relevant state of one `MutableFileChunkStorage.Writer`:
its fixed `startPosition`, its `writtenSize`, and the table slot
(`writtenSizeIndex`) it updates. -/
structure MFWriter where
  startPosition : Nat
  writtenSize : Nat
  writtenSizeIndex : Nat
deriving DecidableEq

/-- `writer(startPosition)`: grows the table by the pair
`(startPosition, 0)`, bumps the pair count, and returns a writer bound to
the new slot (the constructor reads `startPosition` and `writtenSize` back
out of the grown table). -/
def MutableFileChunkStorage.writer (st : MutableFileChunkStorage)
    (startPosition : Nat) : MutableFileChunkStorage × MFWriter :=
  let persistenceIndex := st.persistenceData.length
  let pd1 := concatTypedArray [st.persistenceData, [startPosition, 0]]
  let pd2 := pd1.set 0 (pd1.headD 0 + 2)
  (⟨st.file, pd2, st.persistSentry⟩,
    ⟨pd2.getD persistenceIndex 0, pd2.getD (persistenceIndex + 1) 0,
      persistenceIndex + 1⟩)

/-- `Writer.doWrite(data)`: nothing for empty data; otherwise writes the
bytes at `startPosition + writtenSize` in the backing file, advances
`writtenSize`, and stores it into the writer's table slot (`List.set`
ignores an out-of-range index exactly as an out-of-range indexed store on a
`Float64Array` is ignored). -/
def MutableFileChunkStorage.Writer.doWrite (st : MutableFileChunkStorage)
    (w : MFWriter) (data : List Nat) : MutableFileChunkStorage × MFWriter :=
  if data.length = 0 then (st, w)
  else
    let file1 := st.file.write data (w.startPosition + w.writtenSize)
    let written1 := w.writtenSize + data.length
    (⟨file1, st.persistenceData.set w.writtenSizeIndex written1, st.persistSentry⟩,
      ⟨w.startPosition, written1, w.writtenSizeIndex⟩)

/-- `persist(totalSize, final)`: no-op without a total size; the critical
section re-checks the captured generation sentry and silently no-ops when a
`reset` has replaced it; otherwise truncates (final) or writes the
serialized table at `totalSize`.  `sentry` is the generation captured when
the call was issued; `st` is the state when the critical-section body
runs. -/
def MutableFileChunkStorage.persist (st : MutableFileChunkStorage)
    (totalSize : Option Nat) (final : Bool) (sentry : Nat) :
    MutableFileChunkStorage :=
  match totalSize with
  | none => st
  | some t =>
      if sentry ≠ st.persistSentry then st
      else if final then ⟨st.file.truncate t, st.persistenceData, st.persistSentry⟩
      else ⟨st.file.write (typedArrayToBuffer st.persistenceData) t,
        st.persistenceData, st.persistSentry⟩

/-- `reset()`: table back to its empty header, a fresh sentry, and the
backing file truncated to length 0. -/
def MutableFileChunkStorage.reset (st : MutableFileChunkStorage) :
    MutableFileChunkStorage :=
  ⟨st.file.truncate 0, [0], st.persistSentry + 1⟩

/-- The `(startPosition, writtenSize)` pairs the load loop
(`for (let i = 1; i < length; i += 2)`) builds writers from.  On a lone
trailing element the source reads past the end of the table
(`undefined`), modelled as 0; every well-formed table has even tail
length, so no claim depends on that corner. -/
def pairsOf : List Nat → List (Nat × Nat)
  | a :: b :: rest => (a, b) :: pairsOf rest
  | [a] => [(a, 0)]
  | [] => []

/-- Outcome of the `try` block of `load`. -/
inductive LoadOutcome where
  | earlyEmpty
  | updated (pd : List Nat)
  | caught
deriving DecidableEq

/-- The `try` block of `load(totalSize)`: reads one `Float64Array` element
at `totalSize` (a read of other than a multiple of 8 bytes makes the
`Float64Array` constructor throw, landing in the `catch`; an empty read
leaves the element `undefined`, so `!size` returns `[]`); a zero size
returns `[]`; then reads the full table of `size + 1` elements from the
same offset, returns `[]` if the decoded table is short, asserts the
instance is fresh, and installs the table.  `readF size position` is the
backing-file read, `Except.error` modelling a failed read. -/
def MutableFileChunkStorage.loadTry (readF : Nat → Nat → Except Unit (List Nat))
    (totalSize : Nat) (pd0 : List Nat) : LoadOutcome :=
  match readF 8 totalSize with
  | .error _ => .caught
  | .ok hdrBytes =>
      if hdrBytes.length % 8 ≠ 0 then .caught
      else if hdrBytes.length = 0 then .earlyEmpty
      else
        let size := decF64 hdrBytes
        if size = 0 then .earlyEmpty
        else
              match readF (8 * (size + 1)) totalSize with
              | .error _ => .caught
              | .ok raw =>
                  if raw.length % 8 ≠ 0 then .caught
                  else
                    let data := decTable raw
                    if data.length ≠ size + 1 then .earlyEmpty
                    else if pd0.length ≠ 1 then .caught
                    else .updated data

/-- `load(totalSize)`: runs the `try` block, then builds one writer per
table pair.  The early `return []` paths skip the writer loop; the `catch`
path falls through to the loop over the unchanged table.  Returns the
resulting table and the `(startPosition, writtenSize)` pairs of the
returned writers, in order. -/
def MutableFileChunkStorage.load (readF : Nat → Nat → Except Unit (List Nat))
    (totalSize : Nat) (pd0 : List Nat) : List Nat × List (Nat × Nat) :=
  match MutableFileChunkStorage.loadTry readF totalSize pd0 with
  | .earlyEmpty => (pd0, [])
  | .updated pd => (pd, pairsOf pd.tail)
  | .caught => (pd0, pairsOf pd0.tail)

/-- `load` on a freshly `init`-ed instance over a concrete backing file
(reads never fail, they are only short). -/
def MutableFileChunkStorage.loadFile (f : MFile) (totalSize : Nat) :
    List Nat × List (Nat × Nat) :=
  MutableFileChunkStorage.load (fun size pos => .ok (f.read size pos)) totalSize [0]

/-- The persistence table representing the pair list `pairs`:
`[2 * count, (startPosition, writtenSize)...]`. -/
def mkTable (pairs : List (Nat × Nat)) : List Nat :=
  (2 * pairs.length) :: pairs.foldr (fun p acc => p.1 :: p.2 :: acc) []

/-- A sequence of `writer(startPosition)` calls, returning the final state
and the writers in creation order. -/
def createWriters : MutableFileChunkStorage → List Nat →
    MutableFileChunkStorage × List MFWriter
  | st, [] => (st, [])
  | st, p :: ps =>
      let step := st.writer p
      let tail := createWriters step.1 ps
      (tail.1, step.2 :: tail.2)

/-! Model of the segmented backend `SegmentedFileChunkStorage`.

The shared segment store keeps immutable blobs under composite keys
`(storageId, startPosition)`; an IndexedDB `add` fails with a constraint
error when the key already exists, and a cursor over the range
`[id] .. [id, []]` visits the id's segments in ascending `startPosition`
order.  The flush generation sentry is a counter (fresh object compared by
identity in the source). -/

/-- A keyed segment: `((storageId, startPosition), bytes)`. -/
abbrev Segment := (Nat × Nat) × List Nat

structure SegmentedFileChunkStorage where
  id : Nat
  flushSentry : Nat
  store : List Segment
deriving DecidableEq

/-- The buffering state of one `SegmentedFileChunkStorage.Writer`. -/
structure SegWriter where
  startPosition : Nat
  writtenSize : Nat
  bufferPosition : Nat
  bufferData : List (List Nat)
  flushSentry : Nat
deriving DecidableEq

/-- `writer(startPosition)`: a fresh writer buffering in memory, capturing
the storage's current flush sentry. -/
def SegmentedFileChunkStorage.writer (st : SegmentedFileChunkStorage)
    (startPosition : Nat) : SegWriter :=
  ⟨startPosition, 0, startPosition, [], st.flushSentry⟩

/-- `Writer.doWrite(data)`: nothing for empty data; otherwise appends the
buffer in memory and advances `writtenSize`; no store access. -/
def SegmentedFileChunkStorage.Writer.doWrite (w : SegWriter)
    (data : List Nat) : SegWriter :=
  if data.length = 0 then w
  else ⟨w.startPosition, w.writtenSize + data.length, w.bufferPosition,
    w.bufferData ++ [data], w.flushSentry⟩

/-- `add` on the `data` object store: fails on an existing key, otherwise
records the blob under the key. -/
def storeAdd (store : List Segment) (key : Nat × Nat) (blob : List Nat) :
    Except Unit (List Segment) :=
  if store.any (fun s => s.1 = key) then .error ()
  else .ok (store ++ [(key, blob)])

/-- `Writer.doFlush()`: a stale sentry or an empty buffer is a silent
no-op; otherwise stores the concatenated buffer as one segment keyed at
`(id, bufferPosition)` and, once the transaction completes, advances
`bufferPosition` and clears the buffer.  A failed transaction (modelled by
`storeAdd`'s error) leaves the writer unchanged and rejects. -/
def SegmentedFileChunkStorage.Writer.doFlush (st : SegmentedFileChunkStorage)
    (w : SegWriter) : Except Unit (SegmentedFileChunkStorage × SegWriter) :=
  if w.flushSentry ≠ st.flushSentry then .ok (st, w)
  else if w.bufferData.length = 0 then .ok (st, w)
  else
    let data := concatTypedArray w.bufferData
    match storeAdd st.store (st.id, w.bufferPosition) data with
    | .error e => .error e
    | .ok store1 =>
        .ok (⟨st.id, st.flushSentry, store1⟩,
          ⟨w.startPosition, w.writtenSize, w.bufferPosition + data.length, [],
            w.flushSentry⟩)

/-- `delete()`: advances the flush sentry and deletes every segment of this
id (the static `delete` removes the key range `[id] .. [id, []]`). -/
def SegmentedFileChunkStorage.delete (st : SegmentedFileChunkStorage) :
    SegmentedFileChunkStorage :=
  ⟨st.id, st.flushSentry + 1, st.store.filter (fun s => s.1.1 ≠ st.id)⟩

/-- Ordered insertion by `startPosition`: the segment sequence a cursor
over the key range `[id] .. [id, []]` visits is sorted by key. -/
def insertSeg (s : Nat × List Nat) : List (Nat × List Nat) → List (Nat × List Nat)
  | [] => [s]
  | t :: rest => if s.1 ≤ t.1 then s :: t :: rest else t :: insertSeg s rest

/-- The `(startPosition, bytes)` sequence of the id's stored segments in
ascending `startPosition` order, as the `getFile` cursor visits them. -/
def segmentsFor (store : List Segment) (id : Nat) : List (Nat × List Nat) :=
  ((store.filter (fun s => s.1.1 = id)).map (fun s => (s.1.2, s.2))).foldr insertSeg []

/-- The cursor loop of `getFile`: each visited segment must start exactly
at `nextPosition` (`assert(startPosition === nextPosition)`, a gap or
overlap is fatal); on success the blobs are concatenated in visit order. -/
def getFileLoop : List (Nat × List Nat) → Nat → Except Unit (List Nat)
  | [], _ => .ok []
  | (pos, blob) :: rest, nextPosition =>
      if pos = nextPosition then
        (getFileLoop rest (nextPosition + blob.length)).map (fun bs => blob ++ bs)
      else .error ()

/-- `getFile()`: scans this id's segments in ascending `startPosition`
order from position 0 and concatenates them. -/
def SegmentedFileChunkStorage.getFile (st : SegmentedFileChunkStorage) :
    Except Unit (List Nat) :=
  getFileLoop (segmentsFor st.store st.id) 0

/-- Stated from the claim: the segments, ordered by `startPosition`, tile
exactly, each segment's start equal to the sum of the lengths of all
preceding segments, starting at `n`. -/
def tilesSpec : Nat → List (Nat × List Nat) → Bool
  | _, [] => true
  | n, (pos, blob) :: rest => pos = n && tilesSpec (n + blob.length) rest

/-! Segmented-backend lemmas and claims. -/

/-- A flush with a matching sentry and a nonempty buffer on a fresh key
stores exactly one segment and clears the buffer. -/
theorem doFlush_ok (st : SegmentedFileChunkStorage) (w : SegWriter)
    (hs : w.flushSentry = st.flushSentry) (hbne : w.bufferData ≠ [])
    (hkey : ¬ st.store.any (fun s => s.1 = (st.id, w.bufferPosition))) :
    SegmentedFileChunkStorage.Writer.doFlush st w =
      .ok (⟨st.id, st.flushSentry,
            st.store ++ [((st.id, w.bufferPosition), concatTypedArray w.bufferData)]⟩,
        ⟨w.startPosition, w.writtenSize,
          w.bufferPosition + (concatTypedArray w.bufferData).length, [],
          w.flushSentry⟩) := by
  unfold SegmentedFileChunkStorage.Writer.doFlush
  rw [if_neg (by simp [hs]), if_neg (by simp [List.length_eq_zero, hbne])]
  simp only [storeAdd]
  rw [if_neg hkey]

/-- C5: on the segmented backend, for a writer with a matching sentry and a
clean buffer, `write(X)`, `write(Y)`, `flush()` stores exactly one new
segment holding `X ++ Y`, keyed at the writer's absolute position
(`startPosition` plus the bytes it already flushed), and clears the buffer,
so a second `flush()` with no intervening write stores nothing; the next
flush position advances by the flushed byte count. -/
theorem SegmentedFileChunkStorage.write_write_flush_single_segment
    (st : SegmentedFileChunkStorage) (w : SegWriter) (x y : List Nat) (flushed : Nat)
    (hs : w.flushSentry = st.flushSentry)
    (hb : w.bufferData = [])
    (hp : w.bufferPosition = w.startPosition + flushed)
    (hne : x ++ y ≠ [])
    (hkey : ¬ st.store.any (fun s => s.1 = (st.id, w.startPosition + flushed))) :
    ∃ st1 w1,
      SegmentedFileChunkStorage.Writer.doFlush st
        (SegmentedFileChunkStorage.Writer.doWrite
          (SegmentedFileChunkStorage.Writer.doWrite w x) y) = .ok (st1, w1) ∧
      st1.store = st.store ++ [((st.id, w.startPosition + flushed), x ++ y)] ∧
      w1.bufferData = [] ∧
      w1.bufferPosition = w.startPosition + flushed + (x ++ y).length ∧
      SegmentedFileChunkStorage.Writer.doFlush st1 w1 = .ok (st1, w1) := by
  have h2 : ∃ bd, SegmentedFileChunkStorage.Writer.doWrite
      (SegmentedFileChunkStorage.Writer.doWrite w x) y =
        ⟨w.startPosition, w.writtenSize + (x ++ y).length, w.bufferPosition, bd,
          w.flushSentry⟩ ∧ bd ≠ [] ∧ concatTypedArray bd = x ++ y := by
    by_cases hx : x.length = 0 <;> by_cases hy : y.length = 0
    · rw [List.length_eq_zero] at hx hy
      exact absurd (by rw [hx, hy]; rfl) hne
    · rw [List.length_eq_zero] at hx
      refine ⟨[y], ?_, by simp, by simp [concatTypedArray, hx]⟩
      simp [SegmentedFileChunkStorage.Writer.doWrite, hx, hy, hb]
    · rw [List.length_eq_zero] at hy
      refine ⟨[x], ?_, by simp, by simp [concatTypedArray, hy]⟩
      simp [SegmentedFileChunkStorage.Writer.doWrite, hx, hy, hb]
    · refine ⟨[x, y], ?_, by simp, by simp [concatTypedArray]⟩
      simp [SegmentedFileChunkStorage.Writer.doWrite, hx, hy, hb, Nat.add_assoc]
  obtain ⟨bd, hw2, hbd, hcat⟩ := h2
  rw [hp] at hw2
  rw [hw2]
  have hflush := doFlush_ok st
    ⟨w.startPosition, w.writtenSize + (x ++ y).length, w.startPosition + flushed, bd,
      w.flushSentry⟩ hs hbd hkey
  refine ⟨_, _, hflush, ?_, rfl, ?_, ?_⟩
  · simp [hcat]
  · simp [hcat]
  · unfold SegmentedFileChunkStorage.Writer.doFlush
    simp [hs]

/-- C5 witness. -/
theorem SegmentedFileChunkStorage.write_write_flush_single_segment_witness :
    ((⟨0, 0, 0, [], 0⟩ : SegWriter).flushSentry =
        (⟨7, 0, []⟩ : SegmentedFileChunkStorage).flushSentry ∧
      (⟨0, 0, 0, [], 0⟩ : SegWriter).bufferData = [] ∧
      (⟨0, 0, 0, [], 0⟩ : SegWriter).bufferPosition =
        (⟨0, 0, 0, [], 0⟩ : SegWriter).startPosition + 0 ∧
      [1, 2] ++ [3] ≠ ([] : List Nat) ∧
      ¬ (⟨7, 0, []⟩ : SegmentedFileChunkStorage).store.any
          (fun s => s.1 = ((⟨7, 0, []⟩ : SegmentedFileChunkStorage).id,
            (⟨0, 0, 0, [], 0⟩ : SegWriter).startPosition + 0))) ∧
    (∃ st1 w1,
      SegmentedFileChunkStorage.Writer.doFlush (⟨7, 0, []⟩ : SegmentedFileChunkStorage)
        (SegmentedFileChunkStorage.Writer.doWrite
          (SegmentedFileChunkStorage.Writer.doWrite (⟨0, 0, 0, [], 0⟩ : SegWriter)
            [1, 2]) [3]) = .ok (st1, w1) ∧
      st1.store = (⟨7, 0, []⟩ : SegmentedFileChunkStorage).store ++
        [(((⟨7, 0, []⟩ : SegmentedFileChunkStorage).id,
            (⟨0, 0, 0, [], 0⟩ : SegWriter).startPosition + 0), [1, 2] ++ [3])] ∧
      w1.bufferData = [] ∧
      w1.bufferPosition = (⟨0, 0, 0, [], 0⟩ : SegWriter).startPosition + 0 +
        ([1, 2] ++ [3]).length ∧
      SegmentedFileChunkStorage.Writer.doFlush st1 w1 = .ok (st1, w1)) :=
  ⟨⟨rfl, rfl, rfl, by decide, by decide⟩,
    SegmentedFileChunkStorage.write_write_flush_single_segment _ _ [1, 2] [3] 0
      rfl rfl rfl (by decide) (by decide)⟩

/-- The cursor loop succeeds exactly on a tiling segment sequence and then
returns the concatenation of the blobs. -/
theorem getFileLoop_tilesSpec (segs : List (Nat × List Nat)) (n : Nat) :
    getFileLoop segs n =
      if tilesSpec n segs then .ok (concatTypedArray (segs.map Prod.snd))
      else .error () := by
  induction segs generalizing n with
  | nil => rfl
  | cons seg rest ih =>
      obtain ⟨pos, blob⟩ := seg
      by_cases hpos : pos = n
      · rw [getFileLoop, if_pos hpos, ih]
        by_cases ht : tilesSpec (n + blob.length) rest
        · rw [if_pos ht, if_pos (by simp [tilesSpec, hpos, ht])]
          rfl
        · rw [if_neg ht, if_neg (by simp [tilesSpec, ht])]
          rfl
      · rw [getFileLoop, if_neg hpos, if_neg (by simp [tilesSpec, hpos])]

/-- C6: on the segmented backend, `getFile()` succeeds exactly when the
segments stored for this id, ordered by `startPosition`, tile without gap
or overlap starting at 0 (each segment's start equal to the sum of the
lengths of all preceding segments), and then it returns the concatenation
of the segment contents in that order; any gap or overlap makes it fail. -/
theorem SegmentedFileChunkStorage.getFile_tiling (st : SegmentedFileChunkStorage) :
    st.getFile =
      if tilesSpec 0 (segmentsFor st.store st.id)
      then .ok (concatTypedArray ((segmentsFor st.store st.id).map Prod.snd))
      else .error () :=
  getFileLoop_tilesSpec (segmentsFor st.store st.id) 0

/-- C8: on the segmented backend, a flush on a writer created before a
`delete()` (its captured sentry predates the storage's advanced one) is a
silent no-op: no segment is stored, the storage and writer are unchanged,
and the flush resolves without error. -/
theorem SegmentedFileChunkStorage.flush_after_delete_noop
    (st : SegmentedFileChunkStorage) (w : SegWriter)
    (hs : w.flushSentry ≤ st.flushSentry) :
    SegmentedFileChunkStorage.Writer.doFlush st.delete w = .ok (st.delete, w) := by
  unfold SegmentedFileChunkStorage.Writer.doFlush
  rw [if_pos]
  show w.flushSentry ≠ st.delete.flushSentry
  have : st.delete.flushSentry = st.flushSentry + 1 := rfl
  omega

/-- C8 witness. -/
theorem SegmentedFileChunkStorage.flush_after_delete_noop_witness :
    (⟨3, 0, 5, [[9]], 0⟩ : SegWriter).flushSentry ≤
        (⟨7, 0, [((7, 3), [1])]⟩ : SegmentedFileChunkStorage).flushSentry ∧
      SegmentedFileChunkStorage.Writer.doFlush
          (⟨7, 0, [((7, 3), [1])]⟩ : SegmentedFileChunkStorage).delete
          (⟨3, 0, 5, [[9]], 0⟩ : SegWriter) =
        .ok ((⟨7, 0, [((7, 3), [1])]⟩ : SegmentedFileChunkStorage).delete,
          (⟨3, 0, 5, [[9]], 0⟩ : SegWriter)) :=
  ⟨by decide,
    SegmentedFileChunkStorage.flush_after_delete_noop _ _ (by decide)⟩

/-- C10: on both backends a `write` of zero-length data is a complete
no-op that succeeds: the random-access writer changes neither the backing
file, the persistence table, nor its `writtenSize`; the segmented writer
appends nothing to its buffer and keeps its `writtenSize`. -/
theorem zero_length_write_noop (st : MutableFileChunkStorage) (w : MFWriter)
    (ws : SegWriter) :
    MutableFileChunkStorage.Writer.doWrite st w [] = (st, w) ∧
    SegmentedFileChunkStorage.Writer.doWrite ws [] = ws :=
  ⟨rfl, rfl⟩

/-! Random-access-backend table lemmas and claims. -/

theorem getD_append_fst (t : List Nat) (a b : Nat) :
    (t ++ [a, b]).getD t.length 0 = a := by
  induction t with
  | nil => rfl
  | cons x t ih => simpa [List.getD_cons_succ] using ih

theorem getD_append_snd (t : List Nat) (a b : Nat) :
    (t ++ [a, b]).getD (t.length + 1) 0 = b := by
  induction t with
  | nil => rfl
  | cons x t ih => simpa [List.getD_cons_succ] using ih

/-- One `writer(p)` call on a well-formed table `2 * k :: t`. -/
theorem writer_step (st : MutableFileChunkStorage) (p k : Nat) (t : List Nat)
    (hpd : st.persistenceData = 2 * k :: t) (ht : t.length = 2 * k) :
    st.writer p = (⟨st.file, 2 * (k + 1) :: (t ++ [p, 0]), st.persistSentry⟩,
      ⟨p, 0, 2 * k + 2⟩) := by
  have hf := getD_append_fst t p 0
  have hs2 := getD_append_snd t p 0
  rw [ht] at hf hs2
  have h2 : 2 * (k + 1) = 2 * k + 2 := by ring
  simp only [MutableFileChunkStorage.writer, hpd, concatTypedArray, List.foldr_cons,
    List.foldr_nil, List.append_nil, List.cons_append, List.length_cons, ht,
    List.headD_cons, List.set_cons_zero, List.getD_cons_succ, hf, hs2, h2]

/-- The writers a sequence of `writer` calls returns, starting from a table
holding `k` pairs: the writer for `p` is bound to the slot after the `k`
existing pairs, with `writtenSize` 0. -/
def expectedWriters (k : Nat) : List Nat → List MFWriter
  | [] => []
  | p :: ps => ⟨p, 0, 2 * k + 2⟩ :: expectedWriters (k + 1) ps

theorem expectedWriters_pairs (k : Nat) (ps : List Nat) :
    (expectedWriters k ps).map (fun w => (w.startPosition, w.writtenSize))
      = ps.map (fun p => (p, 0)) := by
  induction ps generalizing k with
  | nil => rfl
  | cons p ps ih => simp [expectedWriters, ih]

/-- Closed form of a sequence of `writer` calls from a well-formed table. -/
theorem createWriters_closed (ps : List Nat) (st : MutableFileChunkStorage)
    (k : Nat) (t : List Nat)
    (hpd : st.persistenceData = 2 * k :: t) (ht : t.length = 2 * k) :
    (createWriters st ps).1 =
      ⟨st.file, 2 * (k + ps.length) ::
        (t ++ ps.foldr (fun p acc => p :: 0 :: acc) []), st.persistSentry⟩ ∧
    (createWriters st ps).2 = expectedWriters k ps := by
  induction ps generalizing st k t with
  | nil =>
      constructor
      · show st = _
        simp only [List.length_nil, List.foldr_nil, List.append_nil, Nat.add_zero]
        rw [← hpd]
      · rfl
  | cons p ps ih =>
      have hstep := writer_step st p k t hpd ht
      have hnext := ih (⟨st.file, 2 * (k + 1) :: (t ++ [p, 0]), st.persistSentry⟩)
        (k + 1) (t ++ [p, 0]) rfl (by simp [ht]; ring)
      constructor
      · show (createWriters (st.writer p).1 ps).1 = _
        rw [hstep, hnext.1]
        have harith : 2 * (k + 1 + ps.length) = 2 * (k + (ps.length + 1)) := by ring
        have happ : t ++ [p, 0] ++ ps.foldr (fun p acc => p :: 0 :: acc) []
            = t ++ p :: 0 :: ps.foldr (fun p acc => p :: 0 :: acc) [] := by
          rw [List.append_assoc]
          rfl
        rw [harith, happ]
        rfl
      · show (st.writer p).2 :: (createWriters (st.writer p).1 ps).2 = _
        rw [hstep, hnext.2]
        rfl

theorem foldr_pairs_length (ps : List Nat) :
    (ps.foldr (fun p acc => p :: 0 :: acc) []).length = 2 * ps.length := by
  induction ps with
  | nil => rfl
  | cons p ps ih => simp [ih]; ring

/-- C9: after `init` and any sequence of `writer(p)` calls, the persistence
table is `[2 * count, (p, 0)...]`: it has `1 + 2 * count` entries, its
first entry is the entry count minus one, and each call appended exactly
its `(startPosition, 0)` pair, returning a writer with the given
`startPosition`, `writtenSize` 0, bound to the freshly appended slot
(`expectedWriters`); moreover every single `writer` call on a well-formed
table grows it by exactly its own pair. -/
theorem MutableFileChunkStorage.table_invariant (ps : List Nat) :
    ((createWriters MutableFileChunkStorage.initial ps).1.persistenceData
        = 2 * ps.length :: ps.foldr (fun p acc => p :: 0 :: acc) [] ∧
      (createWriters MutableFileChunkStorage.initial ps).1.persistenceData.length
        = 1 + 2 * ps.length ∧
      (createWriters MutableFileChunkStorage.initial ps).1.persistenceData.headD 0
        = (createWriters MutableFileChunkStorage.initial ps).1.persistenceData.length
          - 1) ∧
    (createWriters MutableFileChunkStorage.initial ps).2 = expectedWriters 0 ps ∧
    (createWriters MutableFileChunkStorage.initial ps).2.map
        (fun w => (w.startPosition, w.writtenSize)) = ps.map (fun p => (p, 0)) ∧
    (∀ (st2 : MutableFileChunkStorage) (p k : Nat) (t : List Nat),
      st2.persistenceData = 2 * k :: t → t.length = 2 * k →
      st2.writer p = (⟨st2.file, 2 * (k + 1) :: (t ++ [p, 0]), st2.persistSentry⟩,
        ⟨p, 0, 2 * k + 2⟩)) := by
  have h := createWriters_closed ps MutableFileChunkStorage.initial 0 [] rfl rfl
  have hpd : (createWriters MutableFileChunkStorage.initial ps).1.persistenceData
      = 2 * ps.length :: ps.foldr (fun p acc => p :: 0 :: acc) [] := by
    rw [h.1]
    simp
  refine ⟨⟨hpd, ?_, ?_⟩, h.2, ?_, ?_⟩
  · rw [hpd, List.length_cons, foldr_pairs_length]
    ring
  · rw [hpd, List.length_cons, foldr_pairs_length]
    simp
  · rw [h.2]
    exact expectedWriters_pairs 0 ps
  · intro st2 p k t h1 h2
    exact writer_step st2 p k t h1 h2

/-- C9 witness (for the embedded per-call fact). -/
theorem MutableFileChunkStorage.table_invariant_witness :
    (createWriters MutableFileChunkStorage.initial [4, 9]).1.persistenceData
        = 2 * [4, 9].length :: [4, 9].foldr (fun p acc => p :: 0 :: acc) [] ∧
    (⟨⟨[]⟩, 2 * 1 :: [5, 3], 0⟩ : MutableFileChunkStorage).persistenceData
        = 2 * 1 :: [5, 3] ∧ ([5, 3] : List Nat).length = 2 * 1 ∧
    (⟨⟨[]⟩, 2 * 1 :: [5, 3], 0⟩ : MutableFileChunkStorage).writer 6
        = (⟨(⟨⟨[]⟩, 2 * 1 :: [5, 3], 0⟩ : MutableFileChunkStorage).file,
            2 * (1 + 1) :: ([5, 3] ++ [6, 0]),
            (⟨⟨[]⟩, 2 * 1 :: [5, 3], 0⟩ : MutableFileChunkStorage).persistSentry⟩,
          ⟨6, 0, 2 * 1 + 2⟩) :=
  ⟨(MutableFileChunkStorage.table_invariant [4, 9]).1.1, rfl, rfl,
    (MutableFileChunkStorage.table_invariant [4, 9]).2.2.2 _ 6 1 [5, 3] rfl rfl⟩

/-! Claim C4 concerns `reset` on the random-access backend.  The code gives
`reset` no influence on a pre-reset writer's `doWrite` file access: the
write to the backing file at `startPosition + writtenSize` happens
unconditionally (there is no sentry check in `doWrite`), so only the table
slot store is lost (the slot index falls outside the reset table).  The
claim's "no effect on the backing file" is therefore false. -/

/-- Writing on an empty file zero-pads up to the position and appends. -/
theorem MFile.write_empty (data : List Nat) (pos : Nat) :
    ((⟨[]⟩ : MFile).write data pos).bytes = List.replicate pos 0 ++ data := by
  simp only [MFile.write, List.nil_append, List.length_nil, Nat.sub_zero]
  rw [List.take_replicate, Nat.min_self,
    List.drop_eq_nil_of_le (by rw [List.length_replicate]; omega), List.append_nil]

/-- A storage holding one writer, used to exhibit the post-reset write. -/
def resetCexStorage : MutableFileChunkStorage :=
  (MutableFileChunkStorage.initial.writer 0).1

/-- The writer created before the reset. -/
def resetCexWriter : MFWriter := (MutableFileChunkStorage.initial.writer 0).2

/-- C4 counterexample: a write on a pre-reset writer, executed after
`reset()`, changes the backing file (the claim asserts it has no effect on
it). -/
theorem MutableFileChunkStorage.reset_write_affects_file_cex :
    (MutableFileChunkStorage.Writer.doWrite resetCexStorage.reset resetCexWriter
        [7]).1.file ≠ resetCexStorage.reset.file := by
  decide

/-- C4 amended: `reset()` truncates the backing file to length 0, restores
the table to its one-element empty header, and advances the sentry; a
`persist` whose sentry was captured before the reset and whose
critical-section body runs after it is a silent no-op; a write executed on
a pre-reset writer after the reset leaves the persistence table unchanged
(its slot store is out of range for the reset table) but still writes its
bytes to the backing file at `startPosition + writtenSize` and still
advances the writer's own `writtenSize`. -/
theorem MutableFileChunkStorage.reset_invalidation_amended
    (st : MutableFileChunkStorage) (w : MFWriter) (data : List Nat) (t : Nat)
    (final : Bool) (g : Nat)
    (hw : 1 ≤ w.writtenSizeIndex) (hd : data ≠ []) (hg : g ≤ st.persistSentry) :
    (st.reset.file.bytes = [] ∧ st.reset.persistenceData = [0] ∧
      st.reset.persistSentry = st.persistSentry + 1) ∧
    MutableFileChunkStorage.persist st.reset (some t) final g = st.reset ∧
    (MutableFileChunkStorage.Writer.doWrite st.reset w data).1.persistenceData
      = st.reset.persistenceData ∧
    (MutableFileChunkStorage.Writer.doWrite st.reset w data).1.file.bytes
      = List.replicate (w.startPosition + w.writtenSize) 0 ++ data ∧
    (MutableFileChunkStorage.Writer.doWrite st.reset w data).2.writtenSize
      = w.writtenSize + data.length := by
  have hdlen : ¬ data.length = 0 := by
    simpa [List.length_eq_zero] using hd
  refine ⟨⟨rfl, rfl, rfl⟩, ?_, ?_, ?_, ?_⟩
  · simp only [MutableFileChunkStorage.persist]
    rw [if_pos (by show g ≠ st.persistSentry + 1; omega)]
  · simp only [MutableFileChunkStorage.Writer.doWrite]
    rw [if_neg hdlen]
    show ([0] : List Nat).set w.writtenSizeIndex _ = [0]
    obtain ⟨j, hj⟩ : ∃ j, w.writtenSizeIndex = j + 1 := ⟨w.writtenSizeIndex - 1, by omega⟩
    rw [hj]
    simp [List.set]
  · simp only [MutableFileChunkStorage.Writer.doWrite]
    rw [if_neg hdlen]
    exact MFile.write_empty data (w.startPosition + w.writtenSize)
  · simp only [MutableFileChunkStorage.Writer.doWrite]
    rw [if_neg hdlen]

/-- C4 amended witness. -/
theorem MutableFileChunkStorage.reset_invalidation_amended_witness :
    (1 ≤ resetCexWriter.writtenSizeIndex ∧ ([7] : List Nat) ≠ [] ∧
      0 ≤ resetCexStorage.persistSentry) ∧
    ((resetCexStorage.reset.file.bytes = [] ∧
        resetCexStorage.reset.persistenceData = [0] ∧
        resetCexStorage.reset.persistSentry = resetCexStorage.persistSentry + 1) ∧
      MutableFileChunkStorage.persist resetCexStorage.reset (some 5) false 0
        = resetCexStorage.reset ∧
      (MutableFileChunkStorage.Writer.doWrite resetCexStorage.reset resetCexWriter
          [7]).1.persistenceData = resetCexStorage.reset.persistenceData ∧
      (MutableFileChunkStorage.Writer.doWrite resetCexStorage.reset resetCexWriter
          [7]).1.file.bytes = List.replicate
            (resetCexWriter.startPosition + resetCexWriter.writtenSize) 0 ++ [7] ∧
      (MutableFileChunkStorage.Writer.doWrite resetCexStorage.reset resetCexWriter
          [7]).2.writtenSize = resetCexWriter.writtenSize + [7].length) :=
  ⟨⟨by decide, by decide, by decide⟩,
    MutableFileChunkStorage.reset_invalidation_amended resetCexStorage resetCexWriter
      [7] 5 false 0 (by decide) (by decide) (by decide)⟩

/-! Persist/load round trip (C2) and malformed-metadata fallback (C7). -/

theorem decTable_length (bs : List Nat) : (decTable bs).length = bs.length / 8 := by
  induction bs using decTable.induct with
  | case1 b0 b1 b2 b3 b4 b5 b6 b7 rest ih =>
      simp [decTable, ih]
      omega
  | case2 bs h =>
      have hlen : bs.length < 8 := by
        match bs, h with
        | [], _ => simp
        | [a], _ => simp
        | [a, b], _ => simp
        | [a, b, c], _ => simp
        | [a, b, c, d], _ => simp
        | [a, b, c, d, e], _ => simp
        | [a, b, c, d, e, f], _ => simp
        | [a, b, c, d, e, f, g], _ => simp
        | a :: b :: c :: d :: e :: f :: g :: i :: rest, hh =>
            exact absurd rfl (hh a b c d e f g i rest)
      rw [show decTable bs = [] from ?emp]
      · simp
        omega
      case emp =>
        rw [decTable.eq_def]
        split
        · rename_i b0 b1 b2 b3 b4 b5 b6 b7 rest
          simp at hlen
          omega
        · rfl

theorem pairsOf_foldr (pairs : List (Nat × Nat)) :
    pairsOf (pairs.foldr (fun p acc => p.1 :: p.2 :: acc) []) = pairs := by
  induction pairs with
  | nil => rfl
  | cons p pairs ih => simp [pairsOf, ih]

theorem foldr_flat_length (pairs : List (Nat × Nat)) :
    (pairs.foldr (fun p acc => p.1 :: p.2 :: acc) []).length = 2 * pairs.length := by
  induction pairs with
  | nil => rfl
  | cons p pairs ih =>
      simp [ih]
      ring

theorem foldr_flat_mem (pairs : List (Nat × Nat)) (v : Nat)
    (hv : v ∈ pairs.foldr (fun p acc => p.1 :: p.2 :: acc) []) :
    ∃ p ∈ pairs, v = p.1 ∨ v = p.2 := by
  induction pairs with
  | nil => simp at hv
  | cons p pairs ih =>
      simp only [List.foldr_cons, List.mem_cons] at hv
      rcases hv with h | h | h
      · exact ⟨p, by simp, Or.inl h⟩
      · exact ⟨p, by simp, Or.inr h⟩
      · obtain ⟨q, hq, h2⟩ := ih h
        exact ⟨q, by simp [hq], h2⟩

/-- `load` on a fresh instance over a file whose reads return the full
serialized table headed by a nonzero count installs the table and returns
one writer per pair. -/
theorem loadFile_of_table (f : MFile) (totalSize m : Nat) (flat : List Nat)
    (hm : flat.length = m) (hm0 : m ≠ 0)
    (hlt : ∀ v ∈ m :: flat, v < 2 ^ 64)
    (hr8 : f.read 8 totalSize = encF64 m)
    (hrfull : f.read (8 * (m + 1)) totalSize = encTable (m :: flat)) :
    MutableFileChunkStorage.loadFile f totalSize = (m :: flat, pairsOf flat) := by
  have hsize : decF64 (encF64 m) = m :=
    decF64_encF64 m (hlt m (List.mem_cons_self m flat))
  have hdata : decTable (encTable (m :: flat)) = m :: flat :=
    decTable_encTable (m :: flat) hlt
  have hdatalen : (m :: flat).length = m + 1 := by simp [hm]
  have htry : MutableFileChunkStorage.loadTry
      (fun size pos => .ok (f.read size pos)) totalSize [0] = .updated (m :: flat) := by
    simp only [MutableFileChunkStorage.loadTry, hr8, hrfull, encF64_length,
      encTable_length, hsize, hdata, hdatalen]
    norm_num [hm0, Nat.mul_mod_right]
  unfold MutableFileChunkStorage.loadFile MutableFileChunkStorage.load
  rw [htry]
  rfl

/-- C2: on the random-access backend, `persist(totalSize, final := false)`
followed (on a fresh instance over the same backing file, before any
`writer` call) by `load(totalSize)` reconstructs the writers with exactly
the storage's `(startPosition, writtenSize)` pairs, in the same order.
The bounds keep the table's numbers exactly representable by the modelled
8-byte serialization (the engine's positions and sizes are far below
`2 ^ 53` in practice). -/
theorem MutableFileChunkStorage.persist_load_roundtrip
    (st : MutableFileChunkStorage) (pairs : List (Nat × Nat)) (totalSize : Nat)
    (hpd : st.persistenceData = mkTable pairs)
    (hvals : ∀ p ∈ pairs, p.1 < 2 ^ 64 ∧ p.2 < 2 ^ 64)
    (hcount : 2 * pairs.length < 2 ^ 64) :
    (MutableFileChunkStorage.loadFile
        (st.persist (some totalSize) false st.persistSentry).file totalSize).2
      = pairs := by
  have hfile : (st.persist (some totalSize) false st.persistSentry).file
      = st.file.write (encTable (mkTable pairs)) totalSize := by
    simp only [MutableFileChunkStorage.persist, typedArrayToBuffer, hpd]
    rw [if_neg (by simp)]
    rfl
  rw [hfile]
  by_cases hnil : pairs = []
  · subst hnil
    have hr8 : (st.file.write (encTable (mkTable [])) totalSize).read 8 totalSize
        = encF64 0 := by
      have h1 := MFile.read_write_at st.file (encTable (mkTable []))
        totalSize 8 (by rw [encTable_length]; simp [mkTable])
      rw [List.take_of_length_le (by rw [encTable_length]; simp [mkTable])] at h1
      rw [h1]
      simp [mkTable, encTable]
    have htry : MutableFileChunkStorage.loadTry
        (fun size pos => .ok ((st.file.write (encTable (mkTable [])) totalSize).read
          size pos)) totalSize [0] = .earlyEmpty := by
      simp only [MutableFileChunkStorage.loadTry, hr8, encF64_length]
      norm_num [decF64_encF64]
    unfold MutableFileChunkStorage.loadFile MutableFileChunkStorage.load
    rw [htry]
  · set m := 2 * pairs.length with hmdef
    set flat := pairs.foldr (fun p acc => p.1 :: p.2 :: acc) [] with hflatdef
    have hmk : mkTable pairs = m :: flat := rfl
    have hm : flat.length = m := foldr_flat_length pairs
    have hm0 : m ≠ 0 := by
      have : pairs.length ≠ 0 := fun hc => hnil (List.length_eq_zero.mp hc)
      omega
    have hlt : ∀ v ∈ m :: flat, v < 2 ^ 64 := by
      intro v hv
      rcases List.mem_cons.mp hv with h | h
      · rw [h]
        exact hcount
      · obtain ⟨p, hp, hvp⟩ := foldr_flat_mem pairs v h
        rcases hvp with h2 | h2
        · rw [h2]
          exact (hvals p hp).1
        · rw [h2]
          exact (hvals p hp).2
    have hlen : (encTable (mkTable pairs)).length = 8 * (m + 1) := by
      rw [encTable_length, hmk, List.length_cons, hm]
    have hr8 : (st.file.write (encTable (mkTable pairs)) totalSize).read 8 totalSize
        = encF64 m := by
      have h1 := MFile.read_write_at st.file (encTable (mkTable pairs))
        totalSize 8 (by rw [hlen]; omega)
      rw [h1, hmk, encTable_cons, ← encF64_length m, List.take_left]
    have hrfull : (st.file.write (encTable (mkTable pairs)) totalSize).read
        (8 * (m + 1)) totalSize = encTable (m :: flat) := by
      have h1 := MFile.read_write_at st.file (encTable (mkTable pairs))
        totalSize (8 * (m + 1)) (by rw [hlen])
      rw [h1, List.take_of_length_le (by rw [hlen]), hmk]
    rw [loadFile_of_table _ _ m flat hm hm0 hlt hr8 hrfull]
    show pairsOf flat = pairs
    rw [hflatdef]
    exact pairsOf_foldr pairs

/-- C2 witness. -/
theorem MutableFileChunkStorage.persist_load_roundtrip_witness :
    ((⟨⟨[]⟩, mkTable [(3, 5)], 0⟩ : MutableFileChunkStorage).persistenceData
        = mkTable [(3, 5)] ∧
      (∀ p ∈ [((3 : Nat), (5 : Nat))], p.1 < 2 ^ 64 ∧ p.2 < 2 ^ 64) ∧
      2 * [((3 : Nat), (5 : Nat))].length < 2 ^ 64) ∧
    (MutableFileChunkStorage.loadFile
        ((⟨⟨[]⟩, mkTable [(3, 5)], 0⟩ : MutableFileChunkStorage).persist
          (some 2) false
          (⟨⟨[]⟩, mkTable [(3, 5)], 0⟩ : MutableFileChunkStorage).persistSentry).file
        2).2 = [(3, 5)] :=
  ⟨⟨rfl, by decide, by decide⟩,
    MutableFileChunkStorage.persist_load_roundtrip _ [(3, 5)] 2 rfl
      (by decide) (by decide)⟩

theorem load_of_outcome_empty (readF : Nat → Nat → Except Unit (List Nat))
    (totalSize : Nat)
    (h : MutableFileChunkStorage.loadTry readF totalSize [0] = .earlyEmpty ∨
      MutableFileChunkStorage.loadTry readF totalSize [0] = .caught) :
    MutableFileChunkStorage.load readF totalSize [0] = ([0], []) := by
  unfold MutableFileChunkStorage.load
  rcases h with h1 | h1
  · rw [h1]
  · rw [h1]
    rfl

/-- C7: on the random-access backend, `load(totalSize)` on a fresh instance
treats missing or malformed persisted metadata as absence of prior state
rather than an error: a failing header read, a header read of fewer than 8
bytes, a zero size header, a table read shorter than the announced length,
or a failing table read all leave the table at its empty header and return
an empty writer list. -/
theorem MutableFileChunkStorage.load_malformed_empty
    (readF : Nat → Nat → Except Unit (List Nat)) (totalSize : Nat)
    (h : readF 8 totalSize = .error ()
      ∨ (∃ bs, readF 8 totalSize = .ok bs ∧ bs.length < 8)
      ∨ (∃ bs, readF 8 totalSize = .ok bs ∧ decF64 bs = 0)
      ∨ (∃ bs raw, readF 8 totalSize = .ok bs ∧ bs.length = 8 ∧
          readF (8 * (decF64 bs + 1)) totalSize = .ok raw ∧
          raw.length < 8 * (decF64 bs + 1))
      ∨ (∃ bs, readF 8 totalSize = .ok bs ∧ bs.length = 8 ∧
          readF (8 * (decF64 bs + 1)) totalSize = .error ())) :
    MutableFileChunkStorage.load readF totalSize [0] = ([0], []) := by
  apply load_of_outcome_empty
  rcases h with h | ⟨bs, hbs, hlen⟩ | ⟨bs, hbs, hz⟩ |
    ⟨bs, raw, hbs, hlen8, hraw, hrawlen⟩ | ⟨bs, hbs, hlen8, hraw⟩
  · right
    simp only [MutableFileChunkStorage.loadTry, h]
  · by_cases hm8 : bs.length % 8 = 0
    · left
      simp only [MutableFileChunkStorage.loadTry, hbs]
      rw [if_neg (by omega), if_pos (by omega)]
    · right
      simp only [MutableFileChunkStorage.loadTry, hbs]
      rw [if_pos (by omega)]
  · by_cases hm8 : bs.length % 8 = 0
    · by_cases h0 : bs.length = 0
      · left
        simp only [MutableFileChunkStorage.loadTry, hbs]
        rw [if_neg (by omega), if_pos h0]
      · left
        simp only [MutableFileChunkStorage.loadTry, hbs]
        rw [if_neg (by omega), if_neg h0, if_pos hz]
    · right
      simp only [MutableFileChunkStorage.loadTry, hbs]
      rw [if_pos (by omega)]
  · by_cases hz : decF64 bs = 0
    · left
      simp only [MutableFileChunkStorage.loadTry, hbs]
      rw [if_neg (by omega), if_neg (by omega), if_pos hz]
    · by_cases hm8 : raw.length % 8 = 0
      · left
        simp only [MutableFileChunkStorage.loadTry, hbs, hraw]
        rw [if_neg (by omega), if_neg (by omega), if_neg hz, if_neg (by omega),
          if_pos (by rw [decTable_length]; omega)]
      · right
        simp only [MutableFileChunkStorage.loadTry, hbs, hraw]
        rw [if_neg (by omega), if_neg (by omega), if_neg hz, if_pos (by omega)]
  · by_cases hz : decF64 bs = 0
    · left
      simp only [MutableFileChunkStorage.loadTry, hbs]
      rw [if_neg (by omega), if_neg (by omega), if_pos hz]
    · right
      simp only [MutableFileChunkStorage.loadTry, hbs, hraw]
      rw [if_neg (by omega), if_neg (by omega), if_neg hz]

/-- The always-failing read, exercising the C7 fallback. -/
def failRead : Nat → Nat → Except Unit (List Nat) := fun _ _ => .error ()

/-- C7 witness. -/
theorem MutableFileChunkStorage.load_malformed_empty_witness :
    (failRead 8 0 = .error ()
      ∨ (∃ bs, failRead 8 0 = .ok bs ∧ bs.length < 8)
      ∨ (∃ bs, failRead 8 0 = .ok bs ∧ decF64 bs = 0)
      ∨ (∃ bs raw, failRead 8 0 = .ok bs ∧ bs.length = 8 ∧
          failRead (8 * (decF64 bs + 1)) 0 = .ok raw ∧
          raw.length < 8 * (decF64 bs + 1))
      ∨ (∃ bs, failRead 8 0 = .ok bs ∧ bs.length = 8 ∧
          failRead (8 * (decF64 bs + 1)) 0 = .error ())) ∧
    MutableFileChunkStorage.load failRead 0 [0] = ([0], []) :=
  ⟨Or.inl rfl, MutableFileChunkStorage.load_malformed_empty failRead 0 (Or.inl rfl)⟩

/-! Writer-queue claims: ordering (C1) and failure isolation (C3). -/

/-- From a healthy queue the promise chain never stays rejected: processing
any submissions reduces to the in-order reference semantics, every body
runs, the tail promise ends fulfilled, and the dispatched errors accumulate
in order. -/
theorem runOps_execInOrder {α σ ε : Type} (exec : WOp α → σ → Except ε σ)
    (ops : List (WOp α)) (s : σ) (d : List ε) :
    runOps exec ops ⟨.ok (), s, d⟩ =
      (⟨.ok (), (execInOrder exec ops s).1, d ++ (execInOrder exec ops s).2.2⟩,
        (execInOrder exec ops s).2.1) := by
  induction ops generalizing s d with
  | nil => simp [runOps, execInOrder]
  | cons op rest ih =>
      cases heg : exec op s with
      | ok s1 => simp [runOps, syncStep, execInOrder, heg, ih]
      | error e => simp [runOps, syncStep, execInOrder, heg, ih]

theorem execInOrder_append {α σ ε : Type} (exec : WOp α → σ → Except ε σ)
    (l1 l2 : List (WOp α)) (s : σ) :
    execInOrder exec (l1 ++ l2) s =
      ((execInOrder exec l2 (execInOrder exec l1 s).1).1,
        (execInOrder exec l1 s).2.1 ++
          (execInOrder exec l2 (execInOrder exec l1 s).1).2.1,
        (execInOrder exec l1 s).2.2 ++
          (execInOrder exec l2 (execInOrder exec l1 s).1).2.2) := by
  induction l1 generalizing s with
  | nil => simp [execInOrder]
  | cons op rest ih =>
      cases heg : exec op s with
      | ok s1 => simp [execInOrder, heg, ih]
      | error e => simp [execInOrder, heg, ih]

/-- A chain-valid schedule is the identity schedule: since each operation's
body is chained on its predecessor's settled promise, the only execution
order the promise semantics allows is `0, 1, ..., n - 1`. -/
theorem chainScheduleValid_eq_range (n : Nat) (sched : List Nat)
    (h : chainScheduleValid n sched) : sched = List.range n := by
  obtain ⟨hlen, hnodup, hmem, hmono⟩ := h
  have hfin : sched.toFinset = Finset.range n := by
    apply Finset.eq_of_subset_of_card_le
    · intro x hx
      rw [List.mem_toFinset] at hx
      exact Finset.mem_range.mpr (hmem x hx)
    · rw [List.toFinset_card_of_nodup hnodup, hlen, Finset.card_range]
  have hsub : ∀ k, k < n → k ∈ sched := by
    intro k hk
    rw [← List.mem_toFinset, hfin]
    exact Finset.mem_range.mpr hk
  have hplt : ∀ k, k < n → sched.indexOf k < n := by
    intro k hk
    rw [← hlen]
    exact List.indexOf_lt_length.mpr (hsub k hk)
  have hlow : ∀ k, k < n → k ≤ sched.indexOf k := by
    intro k
    induction k with
    | zero => intro _; exact Nat.zero_le _
    | succ k ih =>
        intro hk
        have h1 := ih (by omega)
        have h2 := hmono k (by omega)
        omega
  have hupp : ∀ d, d < n → sched.indexOf (n - 1 - d) ≤ n - 1 - d := by
    intro d
    induction d with
    | zero =>
        intro hd
        have h1 := hplt (n - 1) (by omega)
        simp only [Nat.sub_zero]
        omega
    | succ d ih =>
        intro hd
        have h1 := ih (by omega)
        have h2 := hmono (n - 1 - (d + 1)) (by omega)
        have h3 : n - 1 - (d + 1) + 1 = n - 1 - d := by omega
        rw [h3] at h2
        omega
  have hpk : ∀ k, k < n → sched.indexOf k = k := by
    intro k hk
    have h1 := hlow k hk
    have h2 := hupp (n - 1 - k) (by omega)
    have h3 : n - 1 - (n - 1 - k) = k := by omega
    rw [h3] at h2
    omega
  apply List.ext_get
  · rw [hlen, List.length_range]
  · intro i h1 h2
    have hi : i < n := by rwa [hlen] at h1
    have hidx := hpk i hi
    have hlt : sched.indexOf i < sched.length := by
      rw [hidx, hlen]
      exact hi
    have hget := List.indexOf_get hlt
    have heq : sched.get ⟨i, h1⟩ = sched.get ⟨sched.indexOf i, hlt⟩ := by
      congr 1
      exact Fin.ext hidx.symm
    rw [List.get_range, heq, hget]

theorem filterMap_getElem_range {β : Type} (l : List β) :
    (List.range l.length).filterMap (fun i => l[i]?) = l := by
  induction l with
  | nil => rfl
  | cons a l ih =>
      rw [List.length_cons, List.range_succ_eq_map]
      have hfun : ((fun i => (a :: l)[i]?) ∘ Nat.succ) = fun i : Nat => l[i]? := by
        funext i
        simp
      simp only [List.filterMap_cons, List.getElem?_cons_zero, List.filterMap_map,
        hfun, ih]

/-- C1: for one writer, effects run strictly in submission order, whatever
the futures' settle times allow: every execution order the promise chain
allows (`chainScheduleValid`) is the submission order itself, the bodies
applied in that order are exactly the submitted operations, and each
`write`/`flush` call's returned future settles with that specific
operation's own completion (the in-order reference results). -/
theorem ChunkStorageWriter.sync_executes_in_call_order {α σ ε : Type}
    (exec : WOp α → σ → Except ε σ) (ops : List (WOp α)) (s : σ)
    (sched : List Nat) (h : chainScheduleValid ops.length sched) :
    sched = List.range ops.length ∧
    sched.filterMap (fun i => ops[i]?) = ops ∧
    (runOps exec ops (initQueue s)).2 = (execInOrder exec ops s).2.1 := by
  have hr := chainScheduleValid_eq_range ops.length sched h
  refine ⟨hr, ?_, ?_⟩
  · rw [hr]
    exact filterMap_getElem_range ops
  · have hinit : (initQueue s : WriterQueue σ ε) = ⟨.ok (), s, []⟩ := rfl
    rw [hinit, runOps_execInOrder]

/-- The backend bodies used by the queue witnesses. -/
def exec0 : WOp Nat → Nat → Except Unit Nat
  | .write d, s => .ok (s + d)
  | .flush, s => .ok s

/-- C1 witness. -/
theorem ChunkStorageWriter.sync_executes_in_call_order_witness :
    chainScheduleValid ([WOp.write 2, WOp.flush] : List (WOp Nat)).length [0, 1] ∧
    (([0, 1] : List Nat) = List.range ([WOp.write 2, WOp.flush] : List (WOp Nat)).length ∧
      ([0, 1] : List Nat).filterMap
          (fun i => ([WOp.write 2, WOp.flush] : List (WOp Nat))[i]?)
        = [WOp.write 2, WOp.flush] ∧
      (runOps exec0 [WOp.write 2, WOp.flush] (initQueue 5)).2
        = (execInOrder exec0 [WOp.write 2, WOp.flush] 5).2.1) :=
  ⟨by decide,
    ChunkStorageWriter.sync_executes_in_call_order exec0 [WOp.write 2, WOp.flush]
      5 [0, 1] (by decide)⟩

/-- C3: when a queued operation's body fails, its own future rejects with
that failure, exactly one error event for it is dispatched on the parent
storage's `onError` channel (between the earlier and later operations'
own failures), the queue is healed (the tail promise is fulfilled), and
every operation submitted afterwards still executes normally from the
pre-failure state — the failed operation's effect is lost. -/
theorem ChunkStorageWriter.sync_failure_isolated {α σ ε : Type}
    (exec : WOp α → σ → Except ε σ) (pre post : List (WOp α)) (op : WOp α)
    (s : σ) (e : ε)
    (hfail : exec op (execInOrder exec pre s).1 = .error e) :
    (runOps exec (pre ++ op :: post) (initQueue s)).2
      = (execInOrder exec pre s).2.1 ++ .error e ::
          (execInOrder exec post (execInOrder exec pre s).1).2.1 ∧
    (runOps exec (pre ++ op :: post) (initQueue s)).1.dispatched
      = (execInOrder exec pre s).2.2 ++ e ::
          (execInOrder exec post (execInOrder exec pre s).1).2.2 ∧
    (runOps exec (pre ++ op :: post) (initQueue s)).1.promise = .ok () ∧
    (runOps exec (pre ++ op :: post) (initQueue s)).1.state
      = (execInOrder exec post (execInOrder exec pre s).1).1 := by
  have hinit : (initQueue s : WriterQueue σ ε) = ⟨.ok (), s, []⟩ := rfl
  have hcons : execInOrder exec (op :: post) (execInOrder exec pre s).1
      = ((execInOrder exec post (execInOrder exec pre s).1).1,
        .error e :: (execInOrder exec post (execInOrder exec pre s).1).2.1,
        e :: (execInOrder exec post (execInOrder exec pre s).1).2.2) := by
    simp [execInOrder, hfail]
  rw [hinit, runOps_execInOrder, execInOrder_append, hcons]
  simp

/-- The failing backend body used by the C3 witness: a `write` of 0
fails. -/
def exec1 : WOp Nat → Nat → Except Unit Nat
  | .write 0, _ => .error ()
  | .write d, s => .ok (s + d)
  | .flush, s => .ok s

/-- C3 witness. -/
theorem ChunkStorageWriter.sync_failure_isolated_witness :
    exec1 (.write 0) (execInOrder exec1 [WOp.write 1] 5).1 = .error () ∧
    ((runOps exec1 ([WOp.write 1] ++ WOp.write 0 :: [WOp.write 2]) (initQueue 5)).2
      = (execInOrder exec1 [WOp.write 1] 5).2.1 ++ .error () ::
          (execInOrder exec1 [WOp.write 2] (execInOrder exec1 [WOp.write 1] 5).1).2.1 ∧
    (runOps exec1 ([WOp.write 1] ++ WOp.write 0 :: [WOp.write 2])
        (initQueue 5)).1.dispatched
      = (execInOrder exec1 [WOp.write 1] 5).2.2 ++ () ::
          (execInOrder exec1 [WOp.write 2] (execInOrder exec1 [WOp.write 1] 5).1).2.2 ∧
    (runOps exec1 ([WOp.write 1] ++ WOp.write 0 :: [WOp.write 2])
        (initQueue 5)).1.promise = .ok () ∧
    (runOps exec1 ([WOp.write 1] ++ WOp.write 0 :: [WOp.write 2])
        (initQueue 5)).1.state
      = (execInOrder exec1 [WOp.write 2] (execInOrder exec1 [WOp.write 1] 5).1).1) :=
  ⟨by decide,
    ChunkStorageWriter.sync_failure_isolated exec1 [WOp.write 1] [WOp.write 2]
      (WOp.write 0) 5 () (by decide)⟩
